import Mathlib

/-!
# Verification of the Cognitive-Cue experiment task runner

This file is a shallow embedding, in Lean 4, of the trial generator,
response capture, early-exit handling and scorer of the Cognitive-Cue
browser experiment (the `ExperimentTask` component, current revision).

Conventions of the embedding:

* A trial object `{id, type, isPMCue, src}` is embedded as `TrialItem`
  keeping the two fields the sequencing and scoring logic reads:
  `id` and `isPMCue` (`type` and `src` are never consulted by the
  generator invariants, the scorer or the key handler).
* The JavaScript response object `{[index: number]: string[]}` is
  embedded as an association list `RMap` with the same observable
  operations: read with default `[]`, functional update, key deletion.
* `Math.random()`-driven choices are made explicit: every random draw
  consumes one element of a `List Nat` stream (`value % bound` plays
  the role of `Math.floor(Math.random() * bound)`).  Loops that retry
  until a draw is acceptable return `none` when the stream runs out;
  this is the only failure mode of the embedded generator.
* Machine numbers: all counters are `Nat`; the accuracy computation
  (JavaScript floating-point division plus `toFixed(2)`) is embedded
  as exact arithmetic rounding the percentage to hundredths, half up
  (the rounding mode of `toFixed` on the non-negative values that
  occur here).
-/

/-- One entry of the trial list: the `id` ties repeated presentations of
the same image together, `isPMCue` marks prospective-memory cue trials. -/
structure TrialItem where
  id : String
  isPMCue : Bool
  deriving DecidableEq, Repr

/-- Default element used for in-range indexing (`trials[i]` in JS). -/
def defaultTrial : TrialItem := ⟨"", false⟩

/-- `trials[i]` — array indexing; all uses in the embedded code are
in-range, so the default is never observed. -/
def trialAt (trials : List TrialItem) (i : Nat) : TrialItem :=
  trials.getD i defaultTrial

/-- The response map `{[index: number]: string[]}`: an association list
from trial index to the list of keys recorded for that index. -/
def RMap : Type := List (Nat × List String)

instance : DecidableEq RMap := by unfold RMap; infer_instance

instance : Membership (Nat × List String) RMap := by unfold RMap; infer_instance

/-- `responses[index] || []` — read with default empty list. -/
def getResp (responses : RMap) (i : Nat) : List String :=
  match List.lookup i responses with
  | some v => v
  | none => []

/-- `{...prev, [i]: v}` — replace the binding of `i` (or add it). -/
def setResp : RMap → Nat → List String → RMap
  | [], i, v => [(i, v)]
  | (j, w) :: rest, i, v =>
      if j = i then (j, v) :: rest else (j, w) :: setResp rest i v

/-- `delete newResponses[i]` — remove the binding of `i`. -/
def delResp (responses : RMap) (i : Nat) : RMap :=
  responses.filter (fun p => p.1 != i)

/-- The block tallies produced by `evaluateBlockPerformance`. -/
structure BlockResults where
  nBackCorrect : Nat
  nBackMissed : Nat
  nBackFalseAlarms : Nat
  pmCueCorrect : Nat
  pmCueMissed : Nat
  pmCueFalseAlarms : Nat
  totalImages : Nat
  totalPMCues : Nat
  totalNBackMatches : Nat
  deriving DecidableEq, Repr

/-- `index > 0 && trial.id === trials[index - 1].id` — position `index`
holds a 1-back repeat of the previous position. -/
def oneBackHit (trials : List TrialItem) (index : Nat) : Bool :=
  decide (0 < index) && ((trialAt trials index).id == (trialAt trials (index - 1)).id)

/-- `trials.filter((trial, index) => index > 0 && trial.id === trials[index - 1].id).length`
— the count of adjacent equal-id positions, as computed twice in the
source (trial verification and `totalNBackMatches`). -/
def countNBackMatches (trials : List TrialItem) : Nat :=
  ((List.range trials.length).filter (oneBackHit trials)).length

/-- The body of the `trials.forEach((trial, index) => ...)` loop of
`evaluateBlockPerformance`: classify position `index` for the 1-back
task (when `index > 0`) and for the PM-cue task, updating the running
tallies. -/
def scoreTrial (trials : List TrialItem) (responses : RMap)
    (acc : BlockResults) (index : Nat) : BlockResults :=
  let trial := trialAt trials index
  let trialResponses := getResp responses index
  let acc1 :=
    if 0 < index then
      let isNBackMatch := trial.id == (trialAt trials (index - 1)).id
      if isNBackMatch then
        if trialResponses.contains "n" then
          { acc with nBackCorrect := acc.nBackCorrect + 1 }
        else
          { acc with nBackMissed := acc.nBackMissed + 1 }
      else if trialResponses.contains "n" then
        { acc with nBackFalseAlarms := acc.nBackFalseAlarms + 1 }
      else acc
    else acc
  if trial.isPMCue then
    if trialResponses.contains "z" then
      { acc1 with pmCueCorrect := acc1.pmCueCorrect + 1 }
    else
      { acc1 with pmCueMissed := acc1.pmCueMissed + 1 }
  else if trialResponses.contains "z" then
    { acc1 with pmCueFalseAlarms := acc1.pmCueFalseAlarms + 1 }
  else acc1

/-- `evaluateBlockPerformance`: replay the trial list against the
recorded responses and produce the block tallies.  The counters start
at zero, the totals are the filter counts computed in the source, and
the `forEach` loop visits the indices `0, 1, ..., trials.length - 1`
in order. -/
def evaluateBlockPerformance (trials : List TrialItem) (responses : RMap) :
    BlockResults :=
  let totalImages := (trials.filter (fun trial => !trial.isPMCue)).length
  let totalPMCues := (trials.filter (fun trial => trial.isPMCue)).length
  let totalNBackMatches := countNBackMatches trials
  (List.range trials.length).foldl (scoreTrial trials responses)
    { nBackCorrect := 0, nBackMissed := 0, nBackFalseAlarms := 0
      pmCueCorrect := 0, pmCueMissed := 0, pmCueFalseAlarms := 0
      totalImages := totalImages, totalPMCues := totalPMCues
      totalNBackMatches := totalNBackMatches }

/-- `isOneBackMatch` (used by the debug overlay): bounds-checked 1-back
test. -/
def isOneBackMatch (trials : List TrialItem) (index : Nat) : Bool :=
  if index ≤ 0 || decide (trials.length ≤ index) then false
  else (trialAt trials index).id == (trialAt trials (index - 1)).id

/-! ## Characterisation of the scoring fold -/

/-- `responses[index]` contains the key `k` (keys are `"n"` and `"z"`). -/
def hasKey (responses : RMap) (index : Nat) (k : String) : Bool :=
  (getResp responses index).contains k

/-- `index > 0 && !(trial.id === trials[index-1].id)`: a scored
non-match position. -/
def oneBackNonMatch (trials : List TrialItem) (index : Nat) : Bool :=
  decide (0 < index) && !((trialAt trials index).id == (trialAt trials (index - 1)).id)

lemma scoreTrial_eq (trials : List TrialItem) (responses : RMap)
    (acc : BlockResults) (index : Nat) :
    scoreTrial trials responses acc index =
      { acc with
        nBackCorrect := acc.nBackCorrect +
          (if oneBackHit trials index && hasKey responses index "n" then 1 else 0)
        nBackMissed := acc.nBackMissed +
          (if oneBackHit trials index && !hasKey responses index "n" then 1 else 0)
        nBackFalseAlarms := acc.nBackFalseAlarms +
          (if oneBackNonMatch trials index && hasKey responses index "n" then 1 else 0)
        pmCueCorrect := acc.pmCueCorrect +
          (if (trialAt trials index).isPMCue && hasKey responses index "z" then 1 else 0)
        pmCueMissed := acc.pmCueMissed +
          (if (trialAt trials index).isPMCue && !hasKey responses index "z" then 1 else 0)
        pmCueFalseAlarms := acc.pmCueFalseAlarms +
          (if !(trialAt trials index).isPMCue && hasKey responses index "z" then 1 else 0) } := by
  unfold scoreTrial oneBackHit oneBackNonMatch hasKey
  cases acc
  by_cases h0 : 0 < index <;>
    cases hm : (trialAt trials index).id == (trialAt trials (index - 1)).id <;>
    cases hn : (getResp responses index).contains "n" <;>
    cases hc : (trialAt trials index).isPMCue <;>
    cases hz : (getResp responses index).contains "z" <;>
    simp_all

lemma foldl_scoreTrial (trials : List TrialItem) (responses : RMap)
    (L : List Nat) (acc : BlockResults) :
    L.foldl (scoreTrial trials responses) acc =
      { acc with
        nBackCorrect := acc.nBackCorrect +
          (L.filter (fun i => oneBackHit trials i && hasKey responses i "n")).length
        nBackMissed := acc.nBackMissed +
          (L.filter (fun i => oneBackHit trials i && !hasKey responses i "n")).length
        nBackFalseAlarms := acc.nBackFalseAlarms +
          (L.filter (fun i => oneBackNonMatch trials i && hasKey responses i "n")).length
        pmCueCorrect := acc.pmCueCorrect +
          (L.filter (fun i => (trialAt trials i).isPMCue && hasKey responses i "z")).length
        pmCueMissed := acc.pmCueMissed +
          (L.filter (fun i => (trialAt trials i).isPMCue && !hasKey responses i "z")).length
        pmCueFalseAlarms := acc.pmCueFalseAlarms +
          (L.filter (fun i => !(trialAt trials i).isPMCue && hasKey responses i "z")).length } := by
  induction L generalizing acc with
  | nil => simp
  | cons i L ih =>
      rw [List.foldl_cons, ih, scoreTrial_eq]
      simp only [List.filter_cons]
      cases h1 : oneBackHit trials i && hasKey responses i "n" <;>
        cases h2 : oneBackHit trials i && !hasKey responses i "n" <;>
        cases h3 : oneBackNonMatch trials i && hasKey responses i "n" <;>
        cases h4 : (trialAt trials i).isPMCue && hasKey responses i "z" <;>
        cases h5 : (trialAt trials i).isPMCue && !hasKey responses i "z" <;>
        cases h6 : !(trialAt trials i).isPMCue && hasKey responses i "z" <;>
        simp <;> omega

/-- The six counters of `evaluateBlockPerformance` are exactly the
counts, over all positions, of the corresponding classification
predicates, and the three totals are the source's filter counts. -/
lemma evaluateBlockPerformance_eq (trials : List TrialItem) (responses : RMap) :
    evaluateBlockPerformance trials responses =
      { nBackCorrect :=
          ((List.range trials.length).filter
            (fun i => oneBackHit trials i && hasKey responses i "n")).length
        nBackMissed :=
          ((List.range trials.length).filter
            (fun i => oneBackHit trials i && !hasKey responses i "n")).length
        nBackFalseAlarms :=
          ((List.range trials.length).filter
            (fun i => oneBackNonMatch trials i && hasKey responses i "n")).length
        pmCueCorrect :=
          ((List.range trials.length).filter
            (fun i => (trialAt trials i).isPMCue && hasKey responses i "z")).length
        pmCueMissed :=
          ((List.range trials.length).filter
            (fun i => (trialAt trials i).isPMCue && !hasKey responses i "z")).length
        pmCueFalseAlarms :=
          ((List.range trials.length).filter
            (fun i => !(trialAt trials i).isPMCue && hasKey responses i "z")).length
        totalImages := (trials.filter (fun trial => !trial.isPMCue)).length
        totalPMCues := (trials.filter (fun trial => trial.isPMCue)).length
        totalNBackMatches := countNBackMatches trials } := by
  unfold evaluateBlockPerformance
  rw [foldl_scoreTrial]
  simp

lemma length_filter_and_split {α : Type} (L : List α) (a b : α → Bool) :
    (L.filter (fun x => a x && b x)).length +
      (L.filter (fun x => a x && !b x)).length = (L.filter a).length := by
  induction L with
  | nil => simp
  | cons x L ih =>
      simp only [List.filter_cons]
      cases ha : a x <;> cases hb : b x <;> simp [ha, hb] <;> omega

lemma length_filter_range_getD (l : List TrialItem) (p : TrialItem → Bool) :
    ((List.range l.length).filter (fun i => p (trialAt l i))).length =
      (l.filter p).length := by
  induction l with
  | nil => simp
  | cons a l ih =>
      rw [List.length_cons, List.range_succ_eq_map, List.filter_cons,
        List.filter_map]
      have hcongr :
          (List.range l.length).filter
              ((fun i => p (trialAt (a :: l) i)) ∘ Nat.succ) =
            (List.range l.length).filter (fun i => p (trialAt l i)) := by
        apply List.filter_congr
        intro i _
        simp [Function.comp, trialAt]
      rw [hcongr]
      cases hp : p (trialAt (a :: l) 0) <;>
        simp [trialAt, List.filter_cons, hp] at * <;>
        simp [ih, hp]

/-! ## C1 and C3: scorer classification -/

/-- **C1.** For every trial list and response map the scorer classifies
every position `i ≥ 1` by the 1-back rule: `nBackCorrect` counts exactly
the positions that are a repeat (`trials[i].id == trials[i-1].id`) with
the repeat key `"n"` recorded, `nBackMissed` the repeats without `"n"`,
`nBackFalseAlarms` the scored non-repeats with `"n"` recorded; position
`0` satisfies neither classification predicate, so it is never scored
for repeats. -/
theorem oneBack_scoring_correct (trials : List TrialItem) (responses : RMap) :
    (evaluateBlockPerformance trials responses).nBackCorrect =
      ((List.range trials.length).filter
        (fun i => oneBackHit trials i && hasKey responses i "n")).length ∧
    (evaluateBlockPerformance trials responses).nBackMissed =
      ((List.range trials.length).filter
        (fun i => oneBackHit trials i && !hasKey responses i "n")).length ∧
    (evaluateBlockPerformance trials responses).nBackFalseAlarms =
      ((List.range trials.length).filter
        (fun i => oneBackNonMatch trials i && hasKey responses i "n")).length ∧
    oneBackHit trials 0 = false ∧ oneBackNonMatch trials 0 = false := by
  rw [evaluateBlockPerformance_eq]
  refine ⟨rfl, rfl, rfl, ?_, ?_⟩ <;> simp [oneBackHit, oneBackNonMatch]

/-- **C3.** For every trial list and response map: `pmCueCorrect` counts
exactly the cue positions with the PM key `"z"` recorded, `pmCueMissed`
the cue positions without `"z"`, `pmCueFalseAlarms` the non-cue
positions with `"z"`; every cue trial contributes to exactly one of
correct/missed, so their sum is the number of cue trials. -/
theorem pmCue_scoring_correct (trials : List TrialItem) (responses : RMap) :
    (evaluateBlockPerformance trials responses).pmCueCorrect =
      ((List.range trials.length).filter
        (fun i => (trialAt trials i).isPMCue && hasKey responses i "z")).length ∧
    (evaluateBlockPerformance trials responses).pmCueMissed =
      ((List.range trials.length).filter
        (fun i => (trialAt trials i).isPMCue && !hasKey responses i "z")).length ∧
    (evaluateBlockPerformance trials responses).pmCueFalseAlarms =
      ((List.range trials.length).filter
        (fun i => !(trialAt trials i).isPMCue && hasKey responses i "z")).length ∧
    (evaluateBlockPerformance trials responses).pmCueCorrect +
        (evaluateBlockPerformance trials responses).pmCueMissed =
      (trials.filter (fun trial => trial.isPMCue)).length := by
  rw [evaluateBlockPerformance_eq]
  refine ⟨rfl, rfl, rfl, ?_⟩
  rw [length_filter_and_split (List.range trials.length)
    (fun i => (trialAt trials i).isPMCue) (fun i => hasKey responses i "z")]
  exact length_filter_range_getD trials (fun trial => trial.isPMCue)

/-- In every block result the scored repeats partition the repeat
positions: `nBackCorrect + nBackMissed = totalNBackMatches`. -/
lemma block_nback_partition (trials : List TrialItem) (responses : RMap) :
    (evaluateBlockPerformance trials responses).nBackCorrect +
        (evaluateBlockPerformance trials responses).nBackMissed =
      (evaluateBlockPerformance trials responses).totalNBackMatches := by
  rw [evaluateBlockPerformance_eq]
  exact length_filter_and_split (List.range trials.length)
    (oneBackHit trials) (fun i => hasKey responses i "n")

/-- In every block result the cue trials partition:
`pmCueCorrect + pmCueMissed = totalPMCues`. -/
lemma block_pm_partition (trials : List TrialItem) (responses : RMap) :
    (evaluateBlockPerformance trials responses).pmCueCorrect +
        (evaluateBlockPerformance trials responses).pmCueMissed =
      (evaluateBlockPerformance trials responses).totalPMCues := by
  rw [evaluateBlockPerformance_eq]
  rw [length_filter_and_split (List.range trials.length)
    (fun i => (trialAt trials i).isPMCue) (fun i => hasKey responses i "z")]
  exact length_filter_range_getD trials (fun trial => trial.isPMCue)

/-! ## C4: final aggregation and accuracy strings -/

/-- The final result object (counters plus the two accuracy strings). -/
structure FinalResults where
  nBackCorrect : Nat
  nBackMissed : Nat
  nBackFalseAlarms : Nat
  pmCueCorrect : Nat
  pmCueMissed : Nat
  pmCueFalseAlarms : Nat
  totalImages : Nat
  totalPMCues : Nat
  totalNBackMatches : Nat
  nBackAccuracy : String
  pmCueAccuracy : String
  deriving DecidableEq, Repr

/-- `calculateFinalResults`: sum every counter over all stored block
results (the source iterates over the per-session block arrays; the
nested iteration is flattened here into one list of block tallies —
addition order does not affect the sums).  The accuracy strings are the
placeholders `'0.00'`, overridden by the caller. -/
def calculateFinalResults (blocks : List BlockResults) : FinalResults where
  nBackCorrect := (blocks.map (·.nBackCorrect)).sum
  nBackMissed := (blocks.map (·.nBackMissed)).sum
  nBackFalseAlarms := (blocks.map (·.nBackFalseAlarms)).sum
  pmCueCorrect := (blocks.map (·.pmCueCorrect)).sum
  pmCueMissed := (blocks.map (·.pmCueMissed)).sum
  pmCueFalseAlarms := (blocks.map (·.pmCueFalseAlarms)).sum
  totalImages := (blocks.map (·.totalImages)).sum
  totalPMCues := (blocks.map (·.totalPMCues)).sum
  totalNBackMatches := (blocks.map (·.totalNBackMatches)).sum
  nBackAccuracy := "0.00"
  pmCueAccuracy := "0.00"

/-- Two-digit decimal part, zero padded. -/
def padHundredths (k : Nat) : String :=
  if k < 10 then "0" ++ toString k else toString k

/-- `(correct / total * 100).toFixed(2)` — the percentage rounded to two
decimals.  JavaScript float division and `toFixed` are modelled by exact
arithmetic: the number of hundredths of a percent is
`round(correct * 10000 / total)`, rounding half up as `toFixed` does for
the non-negative values that occur here. -/
def percentToFixed2 (correct total : Nat) : String :=
  let hundredths := (20000 * correct + total) / (2 * total)
  toString (hundredths / 100) ++ "." ++ padHundredths (hundredths % 100)

/-- The accuracy finalisation performed (identically) at the natural end
of the experiment (`handleKeyPress`) and on early exit
(`endSessionAndShowResults`): first the two safety fix-ups that replace
a zero total with `correct + missed`, then the accuracy strings with the
zero-denominator default `'0.00'`. -/
def finalizeResults (r : FinalResults) : FinalResults :=
  let r1 :=
    if r.totalNBackMatches = 0 ∧ 0 < r.nBackCorrect + r.nBackMissed then
      { r with totalNBackMatches := r.nBackCorrect + r.nBackMissed }
    else r
  let r2 :=
    if r1.totalPMCues = 0 ∧ 0 < r1.pmCueCorrect + r1.pmCueMissed then
      { r1 with totalPMCues := r1.pmCueCorrect + r1.pmCueMissed }
    else r1
  { r2 with
    nBackAccuracy :=
      if 0 < r2.totalNBackMatches then
        percentToFixed2 r2.nBackCorrect r2.totalNBackMatches
      else "0.00"
    pmCueAccuracy :=
      if 0 < r2.totalPMCues then
        percentToFixed2 r2.pmCueCorrect r2.totalPMCues
      else "0.00" }

lemma sum_add_sum (blocks : List BlockResults) (f g t : BlockResults → Nat)
    (h : ∀ b ∈ blocks, f b + g b = t b) :
    (blocks.map f).sum + (blocks.map g).sum = (blocks.map t).sum := by
  induction blocks with
  | nil => simp
  | cons b bs ih =>
      simp only [List.map_cons, List.sum_cons]
      have hb := h b (by simp)
      have hbs := ih (fun x hx => h x (by simp [hx]))
      omega

/-- **C4.** For every aggregate of scorer-produced block tallies, the
final n-back accuracy string is `correct / (correct + missed)` as a
percentage rounded to two decimals, with `'0.00'` when the denominator
is zero, and likewise for the PM-cue accuracy.  (The source divides by
`totalNBackMatches` resp. `totalPMCues`; for tallies produced by
`evaluateBlockPerformance` those totals equal `correct + missed`.) -/
theorem final_accuracy_formula (blocks : List BlockResults)
    (h : ∀ b ∈ blocks, ∃ trials responses,
      b = evaluateBlockPerformance trials responses) :
    (finalizeResults (calculateFinalResults blocks)).nBackAccuracy =
      (if (calculateFinalResults blocks).nBackCorrect +
          (calculateFinalResults blocks).nBackMissed = 0 then "0.00"
       else percentToFixed2 (calculateFinalResults blocks).nBackCorrect
         ((calculateFinalResults blocks).nBackCorrect +
           (calculateFinalResults blocks).nBackMissed)) ∧
    (finalizeResults (calculateFinalResults blocks)).pmCueAccuracy =
      (if (calculateFinalResults blocks).pmCueCorrect +
          (calculateFinalResults blocks).pmCueMissed = 0 then "0.00"
       else percentToFixed2 (calculateFinalResults blocks).pmCueCorrect
         ((calculateFinalResults blocks).pmCueCorrect +
           (calculateFinalResults blocks).pmCueMissed)) := by
  have hn : (calculateFinalResults blocks).nBackCorrect +
      (calculateFinalResults blocks).nBackMissed =
      (calculateFinalResults blocks).totalNBackMatches := by
    simp only [calculateFinalResults]
    exact sum_add_sum blocks _ _ _ (fun b hb => by
      obtain ⟨t, r, rfl⟩ := h b hb
      exact block_nback_partition t r)
  have hp : (calculateFinalResults blocks).pmCueCorrect +
      (calculateFinalResults blocks).pmCueMissed =
      (calculateFinalResults blocks).totalPMCues := by
    simp only [calculateFinalResults]
    exact sum_add_sum blocks _ _ _ (fun b hb => by
      obtain ⟨t, r, rfl⟩ := h b hb
      exact block_pm_partition t r)
  generalize calculateFinalResults blocks = R at hn hp ⊢
  obtain ⟨c, m, fa, pc, pmm, pfa, ti, tp, tn, na, pa⟩ := R
  simp only at hn hp ⊢
  subst hn hp
  unfold finalizeResults
  simp only [if_neg (show ¬(c + m = 0 ∧ 0 < c + m) by omega)]
  simp only [if_neg (show ¬(pc + pmm = 0 ∧ 0 < pc + pmm) by omega)]
  refine ⟨?_, ?_⟩
  · rcases Nat.eq_zero_or_pos (c + m) with h0 | h0
    · simp [h0]
    · rw [if_pos h0, if_neg (by omega)]
  · rcases Nat.eq_zero_or_pos (pc + pmm) with h0 | h0
    · simp [h0]
    · rw [if_pos h0, if_neg (by omega)]

/-- A block of 11 presentations of one image: positions 1..10 are
1-back repeats. -/
def accTrials : List TrialItem := List.replicate 11 ⟨"a", false⟩

/-- The repeat key recorded for positions 1..8 only: 8 hits, 2 misses. -/
def accResponses : RMap :=
  [(1, ["n"]), (2, ["n"]), (3, ["n"]), (4, ["n"]),
   (5, ["n"]), (6, ["n"]), (7, ["n"]), (8, ["n"])]

/-- Witness for `final_accuracy_formula`: a scorer-produced aggregate
with `correct = 8`, `missed = 2` yields the string `"80.00"`, and the
zero-denominator PM side yields `"0.00"`. -/
theorem final_accuracy_formula_witness :
    (finalizeResults (calculateFinalResults
      [evaluateBlockPerformance accTrials accResponses])).nBackAccuracy = "80.00" ∧
    (finalizeResults (calculateFinalResults
      [evaluateBlockPerformance accTrials accResponses])).pmCueAccuracy = "0.00" ∧
    (calculateFinalResults
      [evaluateBlockPerformance accTrials accResponses]).nBackCorrect = 8 ∧
    (calculateFinalResults
      [evaluateBlockPerformance accTrials accResponses]).nBackMissed = 2 := by
  have h := final_accuracy_formula
    [evaluateBlockPerformance accTrials accResponses]
    (fun b hb => ⟨accTrials, accResponses, by simpa using hb⟩)
  refine ⟨?_, ?_, by decide, by decide⟩
  · rw [h.1]; decide
  · rw [h.2]; decide

/-! ## C10: scoring is read-only -/

/-- One step of the scoring loop in state-passing form: the loop body
reads the trial list and the response map from the threaded state and
writes them back exactly as the source does — that is, not at all
(`evaluateBlockPerformance` contains no assignment to `trials` or
`responses`). -/
def scoreTrialS (st : BlockResults × List TrialItem × RMap) (index : Nat) :
    BlockResults × List TrialItem × RMap :=
  (scoreTrial st.2.1 st.2.2 st.1 index, st.2.1, st.2.2)

/-- `evaluateBlockPerformance` in state-passing form: the tallies are
computed while the trial list and the response map are threaded through
every iteration, and the final state is returned together with the
tallies. -/
def evaluateBlockPerformanceS (trials : List TrialItem) (responses : RMap) :
    BlockResults × List TrialItem × RMap :=
  let totalImages := (trials.filter (fun trial => !trial.isPMCue)).length
  let totalPMCues := (trials.filter (fun trial => trial.isPMCue)).length
  let totalNBackMatches := countNBackMatches trials
  (List.range trials.length).foldl scoreTrialS
    ({ nBackCorrect := 0, nBackMissed := 0, nBackFalseAlarms := 0
       pmCueCorrect := 0, pmCueMissed := 0, pmCueFalseAlarms := 0
       totalImages := totalImages, totalPMCues := totalPMCues
       totalNBackMatches := totalNBackMatches }, trials, responses)

lemma foldl_scoreTrialS (trials : List TrialItem) (responses : RMap)
    (L : List Nat) (acc : BlockResults) :
    L.foldl scoreTrialS (acc, trials, responses) =
      (L.foldl (scoreTrial trials responses) acc, trials, responses) := by
  induction L generalizing acc with
  | nil => rfl
  | cons i L ih => rw [List.foldl_cons, List.foldl_cons]; exact ih _

/-- **C10.** Scoring a block is read-only: the state-passing form of
`evaluateBlockPerformance` returns the trial list and the response map
unchanged, and scoring the state it leaves behind a second time yields
the identical tallies. -/
theorem evaluateBlockPerformance_readonly (trials : List TrialItem)
    (responses : RMap) :
    evaluateBlockPerformanceS trials responses =
      (evaluateBlockPerformance trials responses, trials, responses) ∧
    evaluateBlockPerformanceS
        (evaluateBlockPerformanceS trials responses).2.1
        (evaluateBlockPerformanceS trials responses).2.2 =
      (evaluateBlockPerformance trials responses,
        (evaluateBlockPerformanceS trials responses).2.1,
        (evaluateBlockPerformanceS trials responses).2.2) := by
  have key : evaluateBlockPerformanceS trials responses =
      (evaluateBlockPerformance trials responses, trials, responses) := by
    unfold evaluateBlockPerformanceS evaluateBlockPerformance
    exact foldl_scoreTrialS trials responses _ _
  exact ⟨key, by rw [key]; exact key⟩

/-! ## C5, C6, C8: key handling, response capture, early exit -/

/-- The experiment phases (`ExperimentPhase` in the source). -/
inductive Phase where
  | pmCue
  | trial
  | blockEnd
  | pmCueTransitionToTrial
  deriving DecidableEq, Repr

/-- The slice of the component state read and written by the response
capture and trial-advance logic.  Within the `trial` phase the current
trial index is non-negative, so it is carried as a `Nat` here; the
early-exit guard, which compares the possibly `-1` index, takes an
`Int` argument separately. -/
structure ExpState where
  isPaused : Bool
  isLoading : Bool
  waitingForSpacebar : Bool
  waitingForSpacebarAfterPMCues : Bool
  currentPhase : Phase
  showFixation : Bool
  isExperimentActive : Bool
  currentTrialIndex : Nat
  responses : RMap
  deriving DecidableEq

/-- The recording update of `handleKeyPress`:
`setResponses(prev => ...)` — append `key` to the current trial's
response list unless it is already present (idempotent). -/
def recordResp (responses : RMap) (i : Nat) (key : String) : RMap :=
  let trialResponses := getResp responses i
  if trialResponses.contains key then responses
  else setResp responses i (trialResponses ++ [key])

/-- The effect of `handleKeyPress` on the response map, following the
source's branch order: bail out when paused or loading; the
spacebar-after-PM-cues branch leaves the map unchanged; the
block-end spacebar branch resets it to `{}`; `"n"`/`"z"` during the
`trial` phase with the fixation cross showing and the experiment active
record the key for the current trial index; everything else leaves the
map unchanged.  (The trial advance that the recording branch schedules
500 ms later is the separate step `advanceTrial`.) -/
def handleKeyPressResponses (s : ExpState) (eKey : String) : RMap :=
  if s.isPaused || s.isLoading then s.responses
  else
    let key := eKey.toLower
    if s.waitingForSpacebarAfterPMCues && key == " " then s.responses
    else if s.waitingForSpacebar && key == " " then []
    else if s.currentPhase == Phase.trial && s.showFixation
        && s.isExperimentActive then
      if key == "n" || key == "z" then
        recordResp s.responses s.currentTrialIndex key
      else s.responses
    else s.responses

/-- The trial advance performed both by the response branch of
`handleKeyPress` (after 500 ms) and by the fixation timer (after
1500 ms): hide the fixation cross, increment the trial index, and
delete the response entry of the index that now becomes current
(`delete newResponses[currentTrialIndex + 1]`). -/
def advanceTrial (s : ExpState) : ExpState :=
  { s with
    showFixation := false
    currentTrialIndex := s.currentTrialIndex + 1
    responses := delResp s.responses (s.currentTrialIndex + 1) }

/-- The early-exit block-evaluation decision of
`endSessionAndShowResults`: when the current phase is `trial` and the
current trial index is `≥ 0`, the block in progress is scored with
`evaluateBlockPerformance` over the full trial list and the responses
captured so far; otherwise no in-progress block result is produced. -/
def endSessionBlockScore (currentPhase : Phase) (currentTrialIndex : Int)
    (trials : List TrialItem) (responses : RMap) : Option BlockResults :=
  if currentPhase = Phase.trial ∧ 0 ≤ currentTrialIndex then
    some (evaluateBlockPerformance trials responses)
  else none

/-- Amended recording condition: the `trial` phase with the fixation
cross showing, experiment active, not paused, not loading, and the
pressed key lowercases to `"n"` or `"z"`. -/
def recordCond (s : ExpState) (eKey : String) : Bool :=
  !s.isPaused && !s.isLoading && s.currentPhase == Phase.trial
    && s.showFixation && s.isExperimentActive
    && (eKey.toLower == "n" || eKey.toLower == "z")

/-- Amended clearing condition: the block-end spacebar (not paused, not
loading, not intercepted by the after-PM-cues wait). -/
def clearCond (s : ExpState) (eKey : String) : Bool :=
  !s.isPaused && !s.isLoading
    && !(s.waitingForSpacebarAfterPMCues && eKey.toLower == " ")
    && s.waitingForSpacebar && eKey.toLower == " "

/-- **C6 (amended).** A response is recorded for the current trial index
exactly when the experiment is in the `trial` phase with the fixation
cross showing (`trialFixation`), the experiment is active, not paused
and not loading, and the key is `"n"` or `"z"`; the block-end spacebar
clears the whole map; every other key press leaves the response map
unchanged.  (Presses during the image display — `showFixation = false`
— are ignored, contrary to the original claim.) -/
theorem handleKeyPress_response_effect (s : ExpState) (eKey : String) :
    handleKeyPressResponses s eKey =
      if recordCond s eKey then
        recordResp s.responses s.currentTrialIndex (eKey.toLower)
      else if clearCond s eKey then []
      else s.responses := by
  unfold handleKeyPressResponses recordCond clearCond
  cases hp : s.isPaused with
  | true => simp
  | false =>
  cases hl : s.isLoading with
  | true => simp
  | false =>
  simp only [Bool.or_self, Bool.false_or, Bool.not_false, Bool.true_and,
    if_false, Bool.false_eq_true, ite_false]
  by_cases hsp : eKey.toLower = " "
  · have h1 : (eKey.toLower == "n") = false := by simp [hsp]
    have h2 : (eKey.toLower == "z") = false := by simp [hsp]
    have h3 : (eKey.toLower == " ") = true := by simp [hsp]
    simp only [h1, h2, h3, Bool.or_self, Bool.and_true, Bool.and_false,
      Bool.false_or, if_false, Bool.false_eq_true, ite_false]
    cases hw1 : s.waitingForSpacebarAfterPMCues <;>
      cases hw2 : s.waitingForSpacebar <;>
      cases hc : (s.currentPhase == Phase.trial && s.showFixation
        && s.isExperimentActive) <;>
      simp [hc]
  · have h3 : (eKey.toLower == " ") = false := by simp [hsp]
    simp only [h3, Bool.and_false, Bool.false_eq_true, ite_false,
      Bool.and_true, Bool.not_true, Bool.not_false]
    cases hc : (s.currentPhase == Phase.trial) <;>
      cases hf : s.showFixation <;>
      cases ha : s.isExperimentActive <;>
      simp [hc, hf, ha]

/-- **C6 counterexample.** A state in the `trialImage` sub-state (trial
phase, image showing, fixation cross not yet shown), experiment active
and not paused: pressing `"n"` leaves the response map unchanged (and
empty), although the original claim requires the response to be
recorded in the `trialImage` state. -/
def imageState : ExpState where
  isPaused := false
  isLoading := false
  waitingForSpacebar := false
  waitingForSpacebarAfterPMCues := false
  currentPhase := Phase.trial
  showFixation := false
  isExperimentActive := true
  currentTrialIndex := 0
  responses := []

theorem handleKeyPress_ignores_image_phase :
    handleKeyPressResponses imageState "n" = imageState.responses ∧
    getResp (handleKeyPressResponses imageState "n")
      imageState.currentTrialIndex = [] ∧
    imageState.currentPhase = Phase.trial ∧
    imageState.showFixation = false ∧
    imageState.isPaused = false ∧
    imageState.isExperimentActive = true := by
  refine ⟨?_, ?_, rfl, rfl, rfl, rfl⟩ <;> rfl

lemma lookup_delResp_self (responses : RMap) (i : Nat) :
    List.lookup i (delResp responses i) = none := by
  unfold delResp
  induction responses with
  | nil => rfl
  | cons p rest ih =>
      obtain ⟨k, w⟩ := p
      rw [List.filter_cons]
      by_cases hk : k = i
      · simpa [hk] using ih
      · have h1 : ((k, w).1 != i) = true := by simpa using hk
        rw [if_pos h1, List.lookup_cons]
        have h2 : (i == k) = false := by simpa using Ne.symm hk
        rw [h2]
        exact ih

lemma getResp_delResp_self (responses : RMap) (i : Nat) :
    getResp (delResp responses i) i = [] := by
  unfold getResp
  rw [lookup_delResp_self]

lemma lookup_setResp_ne (responses : RMap) (i j : Nat) (v : List String)
    (h : j ≠ i) :
    List.lookup j (setResp responses i v) = List.lookup j responses := by
  induction responses with
  | nil =>
      unfold setResp
      rw [List.lookup_cons]
      have h2 : (j == i) = false := by simpa using h
      rw [h2]
  | cons p rest ih =>
      obtain ⟨k, w⟩ := p
      unfold setResp
      by_cases hk : k = i
      · rw [if_pos hk, List.lookup_cons, List.lookup_cons]
        have h2 : (j == k) = false := by simp [hk, h]
        rw [h2]
      · rw [if_neg hk, List.lookup_cons, List.lookup_cons]
        cases h2 : (j == k)
        · exact ih
        · rfl

lemma getResp_setResp_ne (responses : RMap) (i j : Nat) (v : List String)
    (h : j ≠ i) : getResp (setResp responses i v) j = getResp responses j := by
  unfold getResp
  rw [lookup_setResp_ne responses i j v h]

lemma getResp_recordResp_ne (responses : RMap) (i j : Nat) (key : String)
    (h : j ≠ i) : getResp (recordResp responses i key) j = getResp responses j := by
  unfold recordResp
  by_cases hc : (getResp responses i).contains key
  · rw [if_pos hc]
  · rw [if_neg hc]
    exact getResp_setResp_ne responses i j _ h

/-- **C8.** Response isolation: a key recorded while index `i` is
current lands only under key `i` (every other index reads unchanged),
and advancing deletes the entry of the index that becomes current, so
after advancing from `i` the new current index `i + 1` reads an empty
response set — also when a key was recorded for `i` just before the
advance. -/
theorem response_isolation (s : ExpState) (key : String) :
    getResp (advanceTrial s).responses (advanceTrial s).currentTrialIndex = [] ∧
    (advanceTrial s).currentTrialIndex = s.currentTrialIndex + 1 ∧
    getResp (advanceTrial { s with responses := recordResp s.responses s.currentTrialIndex key }).responses (s.currentTrialIndex + 1) = [] ∧
    (∀ j, j ≠ s.currentTrialIndex →
      getResp (recordResp s.responses s.currentTrialIndex key) j =
        getResp s.responses j) := by
  refine ⟨getResp_delResp_self _ _, rfl, getResp_delResp_self _ _, ?_⟩
  intro j hj
  exact getResp_recordResp_ne s.responses s.currentTrialIndex j key hj

/-- Witness for `response_isolation` at a concrete state: a response
recorded for trial 4 does not appear in the response set for trial 5
after advancing, and does not touch index 7. -/
def isoState : ExpState where
  isPaused := false
  isLoading := false
  waitingForSpacebar := false
  waitingForSpacebarAfterPMCues := false
  currentPhase := Phase.trial
  showFixation := true
  isExperimentActive := true
  currentTrialIndex := 4
  responses := [(4, ["z"]), (5, ["n"])]

theorem response_isolation_witness :
    getResp (advanceTrial { isoState with responses := recordResp isoState.responses isoState.currentTrialIndex "n" }).responses 5 = [] ∧
    getResp (recordResp isoState.responses isoState.currentTrialIndex "n") 7 =
      getResp isoState.responses 7 := by
  have h := response_isolation isoState "n"
  exact ⟨h.2.2.1, h.2.2.2 7 (by decide)⟩

/-- **C5 (amended).** Whenever the early-exit path scores a block in
progress (`trial` phase, index `≥ 0`), it scores the entire current
trial list against the responses captured so far — the result does not
depend on how many trials were actually presented — and every repeat or
cue position without a recorded response, visited or not, is counted as
missed. -/
theorem endSession_scores_whole_list (trials : List TrialItem)
    (responses : RMap) (idx : Int) (h : 0 ≤ idx) :
    endSessionBlockScore Phase.trial idx trials responses =
      some (evaluateBlockPerformance trials responses) ∧
    (evaluateBlockPerformance trials responses).nBackMissed =
      ((List.range trials.length).filter
        (fun i => oneBackHit trials i && !hasKey responses i "n")).length ∧
    (evaluateBlockPerformance trials responses).pmCueMissed =
      ((List.range trials.length).filter
        (fun i => (trialAt trials i).isPMCue && !hasKey responses i "z")).length := by
  refine ⟨if_pos ⟨rfl, h⟩, ?_, ?_⟩ <;> rw [evaluateBlockPerformance_eq]

/-- Witness for `endSession_scores_whole_list` at a concrete state. -/
theorem endSession_scores_whole_list_witness :
    endSessionBlockScore Phase.trial 0 (List.replicate 3 ⟨"b", false⟩) [] =
      some (evaluateBlockPerformance (List.replicate 3 ⟨"b", false⟩) []) ∧
    (evaluateBlockPerformance (List.replicate 3 ⟨"b", false⟩) []).nBackMissed = 2 := by
  have h := endSession_scores_whole_list (List.replicate 3 ⟨"b", false⟩) [] 0
    (by decide)
  refine ⟨h.1, ?_⟩
  rw [h.2.1]
  decide

/-- **C5 counterexample.** With a two-trial block whose position 1 is a
repeat, ending the session while only trial 0 has been presented
(current index 0) scores the full list: the unvisited repeat at
position 1 is counted as `nBackMissed = 1`, although the claim requires
unvisited positions to contribute to no counter. -/
theorem endSession_counts_unvisited :
    endSessionBlockScore Phase.trial 0 [⟨"a", false⟩, ⟨"a", false⟩] [] =
      some (evaluateBlockPerformance [⟨"a", false⟩, ⟨"a", false⟩] []) ∧
    (evaluateBlockPerformance [⟨"a", false⟩, ⟨"a", false⟩] []).nBackMissed = 1 := by
  constructor
  · rw [endSessionBlockScore, if_pos ⟨rfl, by decide⟩]
  · decide

/-! ## C2, C7, C9: the trial generator (`prepareSessionTrials`, main path)

The generator's random draws are made explicit: `Math.floor(Math.random() * k)`
becomes `r % k` for the next element `r` of a `List Nat` stream, and the
two retry loops return `none` if the stream is exhausted before they
finish.  The pre-shuffled inputs (`[...].sort(() => Math.random() - 0.5)`)
are taken as parameters, so every theorem quantifies over all shuffles. -/

/-- `list.splice(p, 0, x)` — insert `x` at position `p`. -/
def insertAt (l : List TrialItem) (p : Nat) (x : TrialItem) : List TrialItem :=
  l.take p ++ [x] ++ l.drop p

/-- `imageArray.map((src, index) => ({id: sessionType-index-blockIndex, type, isPMCue: false, src}))`
— one regular (non-cue) trial per selected image; only the id pattern
and the cue flag are kept. -/
def mkRegularImages (sessionType : String) (blockIndex : Nat)
    (imageArray : List String) : List TrialItem :=
  (List.range imageArray.length).map
    (fun index => ⟨s!"{sessionType}-{index}-{blockIndex}", false⟩)

/-- `const nBackMatchesPerBlock = [23, 20, 25]` — the fixed per-block
repeat counts. -/
def nBackMatchesPerBlock : List Nat := [23, 20, 25]

/-- The `while (nBackCount < nBackMatches)` insertion loop: draw an
insert position in `1 .. uniqueImages.length - 1`, repeat the image just
before it, and insert the copy there unless that base image was already
used for a repeat (`usedForNBack`).  One stream element is consumed per
iteration; an exhausted stream yields `none`. -/
def insertNBackRepeats (regularImages : List TrialItem) (nBackMatches : Nat) :
    List Nat → List TrialItem → List Int → Nat →
      Option (List TrialItem × List Nat)
  | [], uniqueImages, _, nBackCount =>
    if nBackCount < nBackMatches then none else some (uniqueImages, [])
  | r :: rest, uniqueImages, used, nBackCount =>
    if nBackCount < nBackMatches then
      let insertPosition := r % (uniqueImages.length - 1) + 1
      let imageToRepeat := trialAt uniqueImages (insertPosition - 1)
      let imageIndex : Int :=
        match regularImages.findIdx? (fun img => img.id == imageToRepeat.id) with
        | some k => (k : Int)
        | none => -1
      if used.contains imageIndex then
        insertNBackRepeats regularImages nBackMatches rest uniqueImages
          used nBackCount
      else
        insertNBackRepeats regularImages nBackMatches rest
          (insertAt uniqueImages insertPosition imageToRepeat)
          (imageIndex :: used) (nBackCount + 1)
    else some (uniqueImages, r :: rest)

/-- The `do { insertPosition = ... } while (...)` loop of the cue
insertion: draw positions in `0 .. trials.length` until one whose two
neighbours are both non-cue is found. -/
def findCuePosition (trials : List TrialItem) :
    List Nat → Option (Nat × List Nat)
  | [] => none
  | r :: rest =>
      let insertPosition := r % (trials.length + 1)
      if (decide (0 < insertPosition)
            && (trialAt trials (insertPosition - 1)).isPMCue)
          || (decide (insertPosition < trials.length)
            && (trialAt trials insertPosition).isPMCue) then
        findCuePosition trials rest
      else some (insertPosition, rest)

/-- `for (const pmCue of shuffledPMCues) { ... trials.splice(insertPosition, 0, pmCue) }`
— insert each cue at an admissible position. -/
def insertPMCues :
    List TrialItem → List TrialItem → List Nat →
      Option (List TrialItem × List Nat)
  | [], trials, rands => some (trials, rands)
  | pmCue :: restCues, trials, rands =>
      match findCuePosition trials rands with
      | none => none
      | some (insertPosition, rands2) =>
          insertPMCues restCues (insertAt trials insertPosition pmCue) rands2

/-- The insufficient-pool handling of `prepareSessionTrials`: when the
current block's cue pool has fewer than 6 entries, fall back to the
first block's cue set — but only when the pool is completely empty;
otherwise the partial pool is used as is. -/
def resolvePMCuePool (pmCuesForCurrentBlock blockOneCues : List TrialItem) :
    List TrialItem :=
  if pmCuesForCurrentBlock.length < 6 then
    if pmCuesForCurrentBlock.length = 0 then blockOneCues
    else pmCuesForCurrentBlock
  else pmCuesForCurrentBlock

/-- The main (non-practice) path of `prepareSessionTrials`: select 70
images, build `uniqueImagesNeeded = 70 - 6 - nBackMatches` unique
trials, insert the configured number of repeats, then insert the
(already resolved and shuffled) PM cues. -/
def prepareMainTrials (sessionType : String) (blockIndex : Nat)
    (shuffledImages : List String) (shuffledPMCues : List TrialItem)
    (rands : List Nat) : Option (List TrialItem) :=
  let imageArray := shuffledImages.take 70
  let regularImages := mkRegularImages sessionType blockIndex imageArray
  let nBackMatches := nBackMatchesPerBlock.getD blockIndex 0
  let uniqueImagesNeeded := 70 - 6 - nBackMatches
  let uniqueImages := regularImages.take uniqueImagesNeeded
  match insertNBackRepeats regularImages nBackMatches rands uniqueImages [] 0 with
  | none => none
  | some (withRepeats, rands2) =>
      match insertPMCues shuffledPMCues withRepeats rands2 with
      | none => none
      | some (trials, _) => some trials

/-- Recursive form of the adjacent equal-id pair count (the sliding
window of `countNBackMatches`), used for the insertion lemmas. -/
def adjPairs : List TrialItem → Nat
  | a :: b :: rest => (if b.id == a.id then 1 else 0) + adjPairs (b :: rest)
  | _ => 0

/-- The number of cue trials in a list
(`trials.filter(trial => trial.isPMCue).length`). -/
def cueCount (l : List TrialItem) : Nat :=
  (l.filter (fun trial => trial.isPMCue)).length

/-- No two adjacent trials are both cue trials. -/
def noAdjacentCues : List TrialItem → Bool
  | a :: b :: rest => (!(a.isPMCue && b.isPMCue)) && noAdjacentCues (b :: rest)
  | _ => true

lemma insertAt_zero (l : List TrialItem) (x : TrialItem) :
    insertAt l 0 x = x :: l := by
  simp [insertAt]

lemma insertAt_cons_succ (a : TrialItem) (l : List TrialItem) (p : Nat)
    (x : TrialItem) : insertAt (a :: l) (p + 1) x = a :: insertAt l p x := by
  simp [insertAt]

lemma length_insertAt (l : List TrialItem) (p : Nat) (x : TrialItem) :
    (insertAt l p x).length = l.length + 1 := by
  simp [insertAt]
  omega

lemma mem_insertAt (l : List TrialItem) (p : Nat) (x y : TrialItem)
    (h : y ∈ insertAt l p x) : y = x ∨ y ∈ l := by
  unfold insertAt at h
  rcases List.mem_append.mp h with h1 | h1
  · rcases List.mem_append.mp h1 with h2 | h2
    · exact Or.inr (List.mem_of_mem_take h2)
    · simpa using Or.inl (List.mem_singleton.mp h2)
  · exact Or.inr (List.mem_of_mem_drop h1)

lemma trialAt_mem (l : List TrialItem) (i : Nat) (h : i < l.length) :
    trialAt l i ∈ l := by
  unfold trialAt
  rw [List.getD_eq_getElem l defaultTrial h]
  exact List.getElem_mem h

lemma cueCount_insertAt (l : List TrialItem) (p : Nat) (x : TrialItem) :
    cueCount (insertAt l p x) =
      cueCount l + (if x.isPMCue then 1 else 0) := by
  unfold cueCount insertAt
  rw [List.filter_append, List.filter_append, List.length_append,
    List.length_append]
  conv_rhs => rw [← List.take_append_drop p l, List.filter_append,
    List.length_append]
  rcases hx : x.isPMCue <;> simp [List.filter_cons, hx] <;> omega

lemma adjPairs_cons₂ (a b : TrialItem) (rest : List TrialItem) :
    adjPairs (a :: b :: rest) =
      (if b.id == a.id then 1 else 0) + adjPairs (b :: rest) := rfl

/-- Inserting a copy of the element just before position `p` creates
exactly one new adjacent pair, whatever the surrounding ids are. -/
lemma adjPairs_insertAt_dup :
    ∀ (l : List TrialItem) (p : Nat) (x : TrialItem),
      1 ≤ p → p < l.length → x.id = (trialAt l (p - 1)).id →
      adjPairs (insertAt l p x) = adjPairs l + 1 := by
  intro l
  induction l with
  | nil => intro p x h1 h2 hx; simp at h2
  | cons a l' ih =>
      intro p x h1 h2 hx
      rcases p with _ | q
      · omega
      · rw [insertAt_cons_succ]
        rcases q with _ | q'
        · rcases l' with _ | ⟨b, l''⟩
          · simp at h2
          · have hxa : x.id = a.id := by simpa [trialAt] using hx
            rw [insertAt_zero, adjPairs_cons₂, adjPairs_cons₂, adjPairs_cons₂]
            simp [hxa]
            omega
        · rcases l' with _ | ⟨b, l''⟩
          · simp at h2
          · have hih := ih (q' + 1) x (by omega)
              (by simp only [List.length_cons] at h2 ⊢; omega)
              (by simpa [trialAt] using hx)
            rw [insertAt_cons_succ] at hih
            rw [insertAt_cons_succ, adjPairs_cons₂, adjPairs_cons₂]
            omega

/-- Inserting an element whose id differs from both neighbours never
increases the adjacent-pair count. -/
lemma adjPairs_insertAt_notin :
    ∀ (l : List TrialItem) (p : Nat) (x : TrialItem),
      p ≤ l.length →
      (0 < p → x.id ≠ (trialAt l (p - 1)).id) →
      (p < l.length → x.id ≠ (trialAt l p).id) →
      adjPairs (insertAt l p x) ≤ adjPairs l := by
  intro l
  induction l with
  | nil =>
      intro p x hp h1 h2
      have hp0 : p = 0 := by simpa using hp
      subst hp0
      rw [insertAt_zero]
      exact Nat.le.refl
  | cons a l' ih =>
      intro p x hp h1 h2
      rcases p with _ | q
      · rw [insertAt_zero, adjPairs_cons₂]
        have hxa : x.id ≠ (trialAt (a :: l') 0).id := h2 (by simp)
        simp only [trialAt, List.getD_cons_zero] at hxa
        have hf : (a.id == x.id) = false := by
          simpa using (Ne.symm hxa)
        simp [hf]
      · rw [insertAt_cons_succ]
        rcases q with _ | q'
        · rw [insertAt_zero]
          rcases l' with _ | ⟨b, l''⟩
          · have hxa := h1 (by omega)
            simp only [trialAt, List.getD_cons_zero, Nat.sub_self] at hxa
            rw [adjPairs_cons₂]
            have hf : (x.id == a.id) = false := by simpa using hxa
            simp [hf, adjPairs]
          · have hxa := h1 (by omega)
            simp only [trialAt, List.getD_cons_zero, Nat.sub_self] at hxa
            have hxb := h2 (by simp)
            simp only [trialAt, List.getD_cons_succ, List.getD_cons_zero] at hxb
            rw [adjPairs_cons₂, adjPairs_cons₂, adjPairs_cons₂]
            have hf1 : (x.id == a.id) = false := by simpa using hxa
            have hf2 : (b.id == x.id) = false := by simpa using (Ne.symm hxb)
            simp [hf1, hf2]
        · rcases l' with _ | ⟨b, l''⟩
          · simp at hp
          · have hih := ih (q' + 1) x
              (by simp only [List.length_cons] at hp ⊢; omega)
              (fun h0 => by simpa [trialAt] using h1 (by omega))
              (fun hlt => by
                have hx2 := h2 (by simp only [List.length_cons] at hlt ⊢; omega)
                simpa [trialAt] using hx2)
            rw [insertAt_cons_succ] at hih
            rw [insertAt_cons_succ, adjPairs_cons₂, adjPairs_cons₂]
            omega

lemma noAdjacentCues_cons₂ (a b : TrialItem) (rest : List TrialItem) :
    noAdjacentCues (a :: b :: rest) =
      ((!(a.isPMCue && b.isPMCue)) && noAdjacentCues (b :: rest)) := rfl

lemma noAdjacentCues_of_noncue :
    ∀ (l : List TrialItem), (∀ t ∈ l, t.isPMCue = false) →
      noAdjacentCues l = true := by
  intro l
  induction l with
  | nil => intro _; rfl
  | cons a l' ih =>
      intro h
      rcases l' with _ | ⟨b, l''⟩
      · rfl
      · rw [noAdjacentCues_cons₂]
        have ha : a.isPMCue = false := h a (by simp)
        have hrest := ih (fun t ht => h t (by simp [ht]))
        simp [ha, hrest]

/-- Inserting any element between two non-cue neighbours preserves the
no-two-adjacent-cues invariant. -/
lemma noAdjacentCues_insertAt :
    ∀ (l : List TrialItem) (p : Nat) (x : TrialItem),
      p ≤ l.length →
      noAdjacentCues l = true →
      (0 < p → (trialAt l (p - 1)).isPMCue = false) →
      (p < l.length → (trialAt l p).isPMCue = false) →
      noAdjacentCues (insertAt l p x) = true := by
  intro l
  induction l with
  | nil =>
      intro p x hp _ _ _
      have hp0 : p = 0 := by simpa using hp
      subst hp0
      rw [insertAt_zero]
      rfl
  | cons a l' ih =>
      intro p x hp h0 h1 h2
      rcases p with _ | q
      · rw [insertAt_zero, noAdjacentCues_cons₂]
        have ha : a.isPMCue = false := by
          simpa [trialAt] using h2 (by simp)
        simp [ha, h0]
      · rw [insertAt_cons_succ]
        rcases q with _ | q'
        · rw [insertAt_zero]
          have ha : a.isPMCue = false := by
            simpa [trialAt] using h1 (by omega)
          rcases l' with _ | ⟨b, l''⟩
          · rw [noAdjacentCues_cons₂]
            simp only [ha, Bool.false_and, Bool.not_false, Bool.true_and]
            rfl
          · have hb : b.isPMCue = false := by
              simpa [trialAt] using h2 (by simp)
            rw [noAdjacentCues_cons₂, noAdjacentCues_cons₂]
            rw [noAdjacentCues_cons₂] at h0
            simp only [Bool.and_eq_true] at h0
            simp [ha, hb, h0.2]
        · rcases l' with _ | ⟨b, l''⟩
          · simp at hp
          · have hih := ih (q' + 1) x
              (by simp only [List.length_cons] at hp ⊢; omega)
              (by rw [noAdjacentCues_cons₂] at h0
                  simpa using (Bool.and_eq_true _ _ |>.mp h0).2)
              (fun hq => by simpa [trialAt] using h1 (by omega))
              (fun hlt => by
                have hx2 := h2 (by simp only [List.length_cons] at hlt ⊢; omega)
                simpa [trialAt] using hx2)
            rw [insertAt_cons_succ] at hih
            rw [insertAt_cons_succ, noAdjacentCues_cons₂]
            rw [noAdjacentCues_cons₂] at h0
            simp only [Bool.and_eq_true] at h0
            simp [h0.1, hih]

lemma length_filter_range_succ (n : Nat) (p : Nat → Bool) :
    ((List.range (n + 1)).filter p).length =
      (if p 0 then 1 else 0) +
        ((List.range n).filter (fun i => p (i + 1))).length := by
  rw [List.range_succ_eq_map, List.filter_cons, List.filter_map]
  have hcongr : (List.range n).filter (p ∘ Nat.succ) =
      (List.range n).filter (fun i => p (i + 1)) := by
    apply List.filter_congr
    intro i _
    rfl
  cases h : p 0 <;> simp [h, hcongr] <;> omega

lemma countNBackMatches_cons₂ (a b : TrialItem) (rest : List TrialItem) :
    countNBackMatches (a :: b :: rest) =
      (if b.id == a.id then 1 else 0) + countNBackMatches (b :: rest) := by
  unfold countNBackMatches
  simp only [List.length_cons]
  rw [length_filter_range_succ (rest.length + 1) (oneBackHit (a :: b :: rest))]
  rw [length_filter_range_succ rest.length
    (fun i => oneBackHit (a :: b :: rest) (i + 1))]
  rw [length_filter_range_succ rest.length (oneBackHit (b :: rest))]
  have h0 : oneBackHit (a :: b :: rest) 0 = false := by
    simp [oneBackHit]
  have h0' : oneBackHit (b :: rest) 0 = false := by
    simp [oneBackHit]
  have h1 : oneBackHit (a :: b :: rest) 1 = (b.id == a.id) := by
    simp [oneBackHit, trialAt]
  have hcongr :
      (List.range rest.length).filter
          (fun i => oneBackHit (a :: b :: rest) (i + 1 + 1)) =
        (List.range rest.length).filter
          (fun i => oneBackHit (b :: rest) (i + 1)) := by
    apply List.filter_congr
    intro i _
    simp [oneBackHit, trialAt]
  rw [hcongr, h0, h0', h1]
  simp [Nat.add_comm, Nat.add_left_comm]

lemma countNBackMatches_eq_adjPairs :
    ∀ (l : List TrialItem), countNBackMatches l = adjPairs l := by
  intro l
  induction l with
  | nil => rfl
  | cons a l' ih =>
      rcases l' with _ | ⟨b, rest⟩
      · rfl
      · rw [countNBackMatches_cons₂, ih, adjPairs_cons₂]

lemma adjPairs_eq_zero_of_pairwise :
    ∀ (l : List TrialItem),
      l.Pairwise (fun s t => s.id ≠ t.id) → adjPairs l = 0 := by
  intro l
  induction l with
  | nil => intro _; rfl
  | cons a l' ih =>
      intro h
      rcases l' with _ | ⟨b, rest⟩
      · rfl
      · rw [adjPairs_cons₂]
        rcases List.pairwise_cons.mp h with ⟨hab, htail⟩
        have : (b.id == a.id) = false := by
          simpa using Ne.symm (hab b (by simp))
        rw [this, ih htail]
        simp

lemma findCuePosition_spec :
    ∀ (rands : List Nat) (trials : List TrialItem) (p : Nat)
      (rands' : List Nat),
      findCuePosition trials rands = some (p, rands') →
      p ≤ trials.length ∧
      (0 < p → (trialAt trials (p - 1)).isPMCue = false) ∧
      (p < trials.length → (trialAt trials p).isPMCue = false) := by
  intro rands
  induction rands with
  | nil => intro trials p rands' h; simp [findCuePosition] at h
  | cons r rest ih =>
      intro trials p rands' h
      simp only [findCuePosition] at h
      split at h
      · exact ih trials p rands' h
      · rename_i hcond
        rw [Option.some.injEq, Prod.mk.injEq] at h
        obtain ⟨rfl, rfl⟩ := h
        rw [Bool.not_eq_true, Bool.or_eq_false_iff, Bool.and_eq_false_iff,
          Bool.and_eq_false_iff] at hcond
        obtain ⟨hL, hR⟩ := hcond
        refine ⟨?_, ?_, ?_⟩
        · have := Nat.mod_lt r (show 0 < trials.length + 1 by omega)
          omega
        · intro h0
          rcases hL with hL | hL
          · simp at hL; omega
          · simpa using hL
        · intro hlt
          rcases hR with hR | hR
          · simp at hR; omega
          · simpa using hR

lemma cueCount_eq_zero (l : List TrialItem)
    (h : ∀ t ∈ l, t.isPMCue = false) : cueCount l = 0 := by
  unfold cueCount
  rw [List.filter_eq_nil_iff.mpr (fun t ht => by simp [h t ht])]
  rfl

lemma insertPMCues_spec :
    ∀ (cues trials : List TrialItem) (rands : List Nat)
      (res : List TrialItem) (rands' : List Nat),
      insertPMCues cues trials rands = some (res, rands') →
      (∀ c ∈ cues, c.isPMCue = true) →
      (∀ c ∈ cues, ∀ t ∈ trials, t.isPMCue = false → c.id ≠ t.id) →
      res.length = trials.length + cues.length ∧
      cueCount res = cueCount trials + cues.length ∧
      adjPairs res ≤ adjPairs trials ∧
      (noAdjacentCues trials = true → noAdjacentCues res = true) := by
  intro cues
  induction cues with
  | nil =>
      intro trials rands res rands' h _ _
      simp only [insertPMCues, Option.some.injEq, Prod.mk.injEq] at h
      obtain ⟨rfl, rfl⟩ := h
      simp
  | cons c cs ih =>
      intro trials rands res rands' h hflag hid
      simp only [insertPMCues] at h
      cases hfind : findCuePosition trials rands with
      | none => rw [hfind] at h; simp at h
      | some pr =>
          obtain ⟨p, r2⟩ := pr
          rw [hfind] at h
          obtain ⟨hple, hleft, hright⟩ := findCuePosition_spec rands trials p r2 hfind
          have hcflag : c.isPMCue = true := hflag c (by simp)
          obtain ⟨ihlen, ihcue, ihadj, ihnoadj⟩ := ih (insertAt trials p c) r2 res
            rands' h
            (fun c' hc' => hflag c' (by simp [hc']))
            (fun c' hc' t ht hnc => by
              rcases mem_insertAt _ _ _ _ ht with rfl | htl
              · rw [hcflag] at hnc; cases hnc
              · exact hid c' (by simp [hc']) t htl hnc)
          refine ⟨?_, ?_, ?_, ?_⟩
          · rw [ihlen, length_insertAt]
            simp only [List.length_cons]
            omega
          · rw [ihcue, cueCount_insertAt]
            simp only [hcflag, if_true, List.length_cons, ite_true]
            omega
          · calc adjPairs res ≤ adjPairs (insertAt trials p c) := ihadj
              _ ≤ adjPairs trials := adjPairs_insertAt_notin trials p c hple
                  (fun h0 => hid c (by simp) _ (trialAt_mem _ _ (by omega)) (hleft h0))
                  (fun hlt => hid c (by simp) _ (trialAt_mem _ _ hlt) (hright hlt))
          · intro hnoadj
            exact ihnoadj (noAdjacentCues_insertAt trials p c hple hnoadj hleft hright)

lemma insertNBackRepeats_spec :
    ∀ (rands : List Nat) (regularImages : List TrialItem) (nB : Nat)
      (unique : List TrialItem) (used : List Int) (cnt : Nat)
      (res : List TrialItem) (rands' : List Nat),
      insertNBackRepeats regularImages nB rands unique used cnt =
        some (res, rands') →
      cnt ≤ nB → 2 ≤ unique.length →
      res.length = unique.length + (nB - cnt) ∧
      adjPairs res = adjPairs unique + (nB - cnt) ∧
      (∀ t ∈ res, t ∈ unique) := by
  intro rands
  induction rands with
  | nil =>
      intro regular nB unique used cnt res rands' h hcnt hlen
      unfold insertNBackRepeats at h
      by_cases hlt : cnt < nB
      · rw [if_pos hlt] at h
        simp at h
      · rw [if_neg hlt] at h
        rw [Option.some.injEq, Prod.mk.injEq] at h
        obtain ⟨rfl, rfl⟩ := h
        have hz : nB - cnt = 0 := by omega
        simp [hz]
  | cons r rest ih =>
      intro regular nB unique used cnt res rands' h hcnt hlen
      unfold insertNBackRepeats at h
      by_cases hlt : cnt < nB
      case neg =>
        rw [if_neg hlt] at h
        rw [Option.some.injEq, Prod.mk.injEq] at h
        obtain ⟨rfl, rfl⟩ := h
        have hz : nB - cnt = 0 := by omega
        simp [hz]
      · rw [if_pos hlt] at h
        simp only [] at h
        split at h
        · obtain ⟨h1, h2, h3⟩ := ih regular nB unique used cnt res rands' h hcnt hlen
          exact ⟨h1, h2, h3⟩
        · have hmod : r % (unique.length - 1) < unique.length - 1 :=
            Nat.mod_lt r (by omega)
          have hip1 : 1 ≤ r % (unique.length - 1) + 1 := by omega
          have hip2 : r % (unique.length - 1) + 1 < unique.length := by omega
          obtain ⟨h1, h2, h3⟩ := ih regular nB
            (insertAt unique (r % (unique.length - 1) + 1)
              (trialAt unique (r % (unique.length - 1) + 1 - 1)))
            _ (cnt + 1) res rands' h (by omega)
            (by rw [length_insertAt]; omega)
          have hdup := adjPairs_insertAt_dup unique
            (r % (unique.length - 1) + 1)
            (trialAt unique (r % (unique.length - 1) + 1 - 1))
            hip1 hip2 rfl
          have hlen' := length_insertAt unique
            (r % (unique.length - 1) + 1)
            (trialAt unique (r % (unique.length - 1) + 1 - 1))
          refine ⟨by omega, by omega, ?_⟩
          intro t ht
          rcases mem_insertAt _ _ _ _ (h3 t ht) with rfl | htl
          · exact trialAt_mem _ _ (by omega)
          · exact htl

lemma trialAt_mem_or_default (l : List TrialItem) (i : Nat) :
    trialAt l i ∈ l ∨ trialAt l i = defaultTrial := by
  by_cases h : i < l.length
  · exact Or.inl (trialAt_mem l i h)
  · exact Or.inr (List.getD_eq_default l defaultTrial (by omega))

lemma mkRegularImages_noncue (sessionType : String) (blockIndex : Nat)
    (imageArray : List String) :
    ∀ t ∈ mkRegularImages sessionType blockIndex imageArray,
      t.isPMCue = false := by
  intro t ht
  unfold mkRegularImages at ht
  obtain ⟨i, _, rfl⟩ := List.mem_map.mp ht
  rfl

lemma insertNBackRepeats_mem :
    ∀ (rands : List Nat) (regularImages : List TrialItem) (nB : Nat)
      (unique : List TrialItem) (used : List Int) (cnt : Nat)
      (res : List TrialItem) (rands' : List Nat),
      insertNBackRepeats regularImages nB rands unique used cnt =
        some (res, rands') →
      ∀ t ∈ res, t ∈ unique ∨ t = defaultTrial := by
  intro rands
  induction rands with
  | nil =>
      intro regular nB unique used cnt res rands' h
      unfold insertNBackRepeats at h
      split at h
      · simp at h
      · rw [Option.some.injEq, Prod.mk.injEq] at h
        obtain ⟨rfl, rfl⟩ := h
        exact fun t ht => Or.inl ht
  | cons r rest ih =>
      intro regular nB unique used cnt res rands' h
      unfold insertNBackRepeats at h
      split at h
      · simp only [] at h
        split at h
        · exact fun t ht => ih regular nB unique used cnt res rands' h t ht
        · intro t ht
          rcases ih regular nB _ _ _ res rands' h t ht with hmem | hdef
          · rcases mem_insertAt _ _ _ _ hmem with rfl | htl
            · rcases trialAt_mem_or_default unique
                (r % (unique.length - 1) + 1 - 1) with hm | hd
              · exact Or.inl hm
              · exact Or.inr hd
            · exact Or.inl htl
          · exact Or.inr hdef
      · rw [Option.some.injEq, Prod.mk.injEq] at h
        obtain ⟨rfl, rfl⟩ := h
        exact fun t ht => Or.inl ht

lemma insertPMCues_noAdj :
    ∀ (cues trials : List TrialItem) (rands : List Nat)
      (res : List TrialItem) (rands' : List Nat),
      insertPMCues cues trials rands = some (res, rands') →
      noAdjacentCues trials = true → noAdjacentCues res = true := by
  intro cues
  induction cues with
  | nil =>
      intro trials rands res rands' h hnoadj
      simp only [insertPMCues, Option.some.injEq, Prod.mk.injEq] at h
      obtain ⟨rfl, rfl⟩ := h
      exact hnoadj
  | cons c cs ih =>
      intro trials rands res rands' h hnoadj
      simp only [insertPMCues] at h
      cases hfind : findCuePosition trials rands with
      | none => rw [hfind] at h; simp at h
      | some pr =>
          obtain ⟨p, r2⟩ := pr
          rw [hfind] at h
          obtain ⟨hple, hleft, hright⟩ :=
            findCuePosition_spec rands trials p r2 hfind
          exact ih (insertAt trials p c) r2 res rands' h
            (noAdjacentCues_insertAt trials p c hple hnoadj hleft hright)

/-- **C7.** Every trial list produced by the generator's main path has
no two adjacent cue trials: the base sequence contains no cues at all,
each cue insertion position is chosen so that neither neighbour is a
cue, and later insertions preserve the invariant. -/
theorem generator_no_adjacent_cues (sessionType : String) (blockIndex : Nat)
    (shuffledImages : List String) (cuePool : List TrialItem)
    (rands : List Nat) (trials : List TrialItem)
    (h : prepareMainTrials sessionType blockIndex shuffledImages cuePool rands =
      some trials) :
    noAdjacentCues trials = true := by
  unfold prepareMainTrials at h
  simp only [] at h
  cases hins : insertNBackRepeats
      (mkRegularImages sessionType blockIndex (shuffledImages.take 70))
      (nBackMatchesPerBlock.getD blockIndex 0) rands
      ((mkRegularImages sessionType blockIndex (shuffledImages.take 70)).take
        (70 - 6 - nBackMatchesPerBlock.getD blockIndex 0)) [] 0 with
  | none => rw [hins] at h; simp at h
  | some wr =>
      obtain ⟨withRepeats, rands2⟩ := wr
      rw [hins] at h
      simp only [] at h
      cases hcue : insertPMCues cuePool withRepeats rands2 with
      | none => rw [hcue] at h; simp at h
      | some tr =>
          obtain ⟨trials2, rands3⟩ := tr
          rw [hcue] at h
          simp only [Option.some.injEq] at h
          subst h
          have hnoncue : ∀ t ∈ withRepeats, t.isPMCue = false := by
            intro t ht
            rcases insertNBackRepeats_mem rands _ _ _ _ _ _ _ hins t ht with
              hm | hd
            · exact mkRegularImages_noncue sessionType blockIndex _ t
                (List.mem_of_mem_take hm)
            · rw [hd]; rfl
          exact insertPMCues_noAdj cuePool withRepeats rands2 trials2 rands3
            hcue (noAdjacentCues_of_noncue withRepeats hnoncue)

/-- 76 image paths, as selected before the shuffle (the ids built by the
generator do not depend on the path strings). -/
def wImages : List String := List.replicate 76 "img"

/-- The six block-1 pleasant cues of `generatePMCuesByBlock`. -/
def wCuePool : List TrialItem :=
  (List.range 6).map (fun i => ⟨s!"pmcue-pleasant-block1-{i + 1}", true⟩)

/-- Draws for the repeat-insertion loop: positions `1, 3, 5, ...` so
every iteration duplicates a fresh base image. -/
def wStreamNBack : List Nat := (List.range 23).map (fun k => 2 * k)

/-- A full draw stream whose six cue positions all fall between repeat
pairs' boundaries (splitting none of them). -/
def wStreamOK : List Nat := wStreamNBack ++ [2, 5, 8, 11, 14, 17]

/-- The block produced from those draws. -/
def wTrialsOK : List TrialItem :=
  (prepareMainTrials "pleasant" 0 wImages wCuePool wStreamOK).getD []

/-- Witness for `generator_no_adjacent_cues` on a concrete run. -/
theorem generator_no_adjacent_cues_witness :
    noAdjacentCues wTrialsOK = true :=
  generator_no_adjacent_cues "pleasant" 0 wImages wCuePool wStreamOK
    wTrialsOK (by rfl)

/-- **C2 (amended).** For every block produced by the generator's main
path (any shuffle, any cue pool of six flagged cues with ids distinct
from the regular ids, any random draws): the trial list has exactly 70
entries and exactly 6 cue trials, and the number of adjacent equal-id
positions is exactly the per-block table value `[23, 20, 25]` right
after the repeat-insertion stage, but only AT MOST that value in the
final list — a cue inserted between the two members of a repeat pair
destroys that pair. -/
theorem generator_block_invariants
    (sessionType : String) (blockIndex : Nat)
    (shuffledImages : List String) (cuePool : List TrialItem)
    (rands : List Nat) (trials : List TrialItem)
    (hb : blockIndex < 3)
    (hlen : 70 ≤ shuffledImages.length)
    (hpool : cuePool.length = 6)
    (hflag : ∀ c ∈ cuePool, c.isPMCue = true)
    (hid : ∀ c ∈ cuePool,
      ∀ t ∈ mkRegularImages sessionType blockIndex (shuffledImages.take 70),
        c.id ≠ t.id)
    (hnodup : List.Pairwise (fun s t => s.id ≠ t.id)
      (mkRegularImages sessionType blockIndex (shuffledImages.take 70)))
    (h : prepareMainTrials sessionType blockIndex shuffledImages cuePool rands =
      some trials) :
    trials.length = 70 ∧
    (trials.filter (fun trial => trial.isPMCue)).length = 6 ∧
    countNBackMatches trials ≤ nBackMatchesPerBlock.getD blockIndex 0 ∧
    (∀ (withRepeats : List TrialItem) (rands2 : List Nat),
      insertNBackRepeats
          (mkRegularImages sessionType blockIndex (shuffledImages.take 70))
          (nBackMatchesPerBlock.getD blockIndex 0) rands
          ((mkRegularImages sessionType blockIndex (shuffledImages.take 70)).take
            (70 - 6 - nBackMatchesPerBlock.getD blockIndex 0)) [] 0 =
        some (withRepeats, rands2) →
      countNBackMatches withRepeats = nBackMatchesPerBlock.getD blockIndex 0) := by
  have hnB : nBackMatchesPerBlock.getD blockIndex 0 = 23 ∨
      nBackMatchesPerBlock.getD blockIndex 0 = 20 ∨
      nBackMatchesPerBlock.getD blockIndex 0 = 25 := by
    rcases blockIndex with _ | _ | _ | k
    · exact Or.inl rfl
    · exact Or.inr (Or.inl rfl)
    · exact Or.inr (Or.inr rfl)
    · omega
  have hnB25 : nBackMatchesPerBlock.getD blockIndex 0 ≤ 25 := by
    rcases hnB with h' | h' | h' <;> omega
  have hreglen :
      (mkRegularImages sessionType blockIndex (shuffledImages.take 70)).length
        = 70 := by
    unfold mkRegularImages
    simp [List.length_take]
    omega
  have huniq :
      ((mkRegularImages sessionType blockIndex (shuffledImages.take 70)).take
        (70 - 6 - nBackMatchesPerBlock.getD blockIndex 0)).length =
      70 - 6 - nBackMatchesPerBlock.getD blockIndex 0 := by
    rw [List.length_take, hreglen]
    omega
  have hadj0 : adjPairs
      ((mkRegularImages sessionType blockIndex (shuffledImages.take 70)).take
        (70 - 6 - nBackMatchesPerBlock.getD blockIndex 0)) = 0 :=
    adjPairs_eq_zero_of_pairwise _
      (List.Pairwise.sublist (List.take_sublist _ _) hnodup)
  -- run the two stages of the generator
  unfold prepareMainTrials at h
  simp only [] at h
  cases hins : insertNBackRepeats
      (mkRegularImages sessionType blockIndex (shuffledImages.take 70))
      (nBackMatchesPerBlock.getD blockIndex 0) rands
      ((mkRegularImages sessionType blockIndex (shuffledImages.take 70)).take
        (70 - 6 - nBackMatchesPerBlock.getD blockIndex 0)) [] 0 with
  | none =>
      rw [hins] at h
      simp at h
  | some wr =>
      obtain ⟨withRepeats, rands2⟩ := wr
      rw [hins] at h
      simp only [] at h
      obtain ⟨hlen1, hadj1, hmem1⟩ := insertNBackRepeats_spec rands _ _ _ _ _
        withRepeats rands2 hins (Nat.zero_le _) (by omega)
      have hnoncue1 : ∀ t ∈ withRepeats, t.isPMCue = false := fun t ht =>
        mkRegularImages_noncue sessionType blockIndex _ t
          (List.mem_of_mem_take (hmem1 t ht))
      cases hcue : insertPMCues cuePool withRepeats rands2 with
      | none => rw [hcue] at h; simp at h
      | some tr =>
          obtain ⟨trials2, rands3⟩ := tr
          rw [hcue] at h
          simp only [Option.some.injEq] at h
          subst h
          obtain ⟨hlen2, hcue2, hadj2, _⟩ := insertPMCues_spec cuePool
            withRepeats rands2 trials2 rands3 hcue hflag
            (fun c hc t ht _ => hid c hc t (List.mem_of_mem_take (hmem1 t ht)))
          have hc0 : cueCount withRepeats = 0 := cueCount_eq_zero _ hnoncue1
          refine ⟨by omega, ?_, ?_, ?_⟩
          · have : cueCount trials2 = 6 := by omega
            exact this
          · rw [countNBackMatches_eq_adjPairs]
            omega
          · intro wr2 r2 hins2
            have h1 : withRepeats = wr2 :=
              congrArg Prod.fst (Option.some.inj hins2)
            subst h1
            rw [countNBackMatches_eq_adjPairs]
            omega

/-- Witness for `generator_block_invariants` on a concrete run:
length 70, six cues, and at most 23 adjacent pairs for block 1. -/
theorem generator_block_invariants_witness :
    wTrialsOK.length = 70 ∧
    (wTrialsOK.filter (fun trial => trial.isPMCue)).length = 6 ∧
    countNBackMatches wTrialsOK ≤ 23 := by
  have h := generator_block_invariants "pleasant" 0 wImages wCuePool wStreamOK
    wTrialsOK (by decide) (by decide) (by decide) (by decide) (by decide)
    (by decide) (by rfl)
  exact ⟨h.1, h.2.1, h.2.2.1⟩

/-- A full draw stream whose first cue position (1) falls inside the
first repeat pair, splitting it. -/
def wStreamCE : List Nat := wStreamNBack ++ [1, 3, 6, 9, 12, 15]

/-- The block produced from the pair-splitting draws. -/
def wTrialsCE : List TrialItem :=
  (prepareMainTrials "pleasant" 0 wImages wCuePool wStreamCE).getD []

/-- **C2 counterexample.** The configured repeat count for block 1 is
23, but this concrete generator run yields a 70-trial list with only 22
adjacent equal-id pairs: the first cue was inserted between the two
members of a repeat pair and destroyed it.  The adjacent-pair count is
therefore NOT always equal to the per-block table value. -/
theorem generator_repeat_count_not_exact :
    prepareMainTrials "pleasant" 0 wImages wCuePool wStreamCE =
      some wTrialsCE ∧
    nBackMatchesPerBlock.getD 0 0 = 23 ∧
    countNBackMatches wTrialsCE = 22 := by
  refine ⟨by rfl, by rfl, by rfl⟩

/-- A partial cue pool of three cues for neutral block 2. -/
def wPool3 : List TrialItem :=
  (List.range 3).map (fun i => ⟨s!"pmcue-neutral-block2-{i + 1}", true⟩)

/-- The six block-1 neutral cues (the fallback set). -/
def wPoolB1 : List TrialItem :=
  (List.range 6).map (fun i => ⟨s!"pmcue-neutral-block1-{i + 1}", true⟩)

/-- Draws for a neutral block-2 run (20 repeats) with a 3-cue pool. -/
def wStream3 : List Nat := wStreamNBack ++ [2, 5, 8]

/-- The trial set generated from the partial 3-cue pool. -/
def wTrials3 : List TrialItem :=
  (prepareMainTrials "neutral" 1 wImages (resolvePMCuePool wPool3 wPoolB1)
    wStream3).getD []

/-- **C9 (amended).** The insufficient-pool handling substitutes the
first block's cue set only when the current pool is completely empty;
a pool of one to five cues is used as it is.  In either case generation
still returns a trial set (concretely: a 3-cue pool yields a 67-trial
block), so an insufficient cue pool is not an error. -/
theorem generator_insufficient_pool_behavior :
    (∀ pool blockOneCues : List TrialItem,
      resolvePMCuePool pool blockOneCues =
        if pool.length = 0 then blockOneCues else pool) ∧
    resolvePMCuePool wPool3 wPoolB1 = wPool3 ∧
    prepareMainTrials "neutral" 1 wImages (resolvePMCuePool wPool3 wPoolB1)
      wStream3 = some wTrials3 ∧
    wTrials3.length = 67 := by
  refine ⟨?_, by rfl, by rfl, by rfl⟩
  intro pool blockOneCues
  unfold resolvePMCuePool
  split_ifs <;> first | rfl | omega

/-- **C9 counterexample.** A pool of three cues (fewer than six): the
generator keeps the partial pool and does NOT reuse the first block's
cue set, contrary to the claim. -/
theorem resolvePMCuePool_small_pool_counterexample :
    wPool3.length = 3 ∧
    resolvePMCuePool wPool3 wPoolB1 = wPool3 ∧
    resolvePMCuePool wPool3 wPoolB1 ≠ wPoolB1 := by
  refine ⟨by rfl, by rfl, by decide⟩
